import Mathlib

/-!
# Verification of the fetchtml templating and list-rendering engine

Shallow embedding of the core of the `fetchtml` repository:

* `src/templating.js` — placeholder parsing (`parsePlaceholder`), path
  tokenisation and resolution (`resolvePath`, `resolveValue`,
  `normalizeToken`), placeholder substitution (`replacePlaceholders`),
  template instantiation (`processTemplate`) and list rendering
  (`renderList`).
* `src/formatters.js` — the formatter registry (`apply`).
* `fetch-list.js` — the fetch-list component lifecycle
  (`processFetchList`, `renderItems`, controller `reload`).

JavaScript values are modelled by the inductive type `JSValue`; thrown
exceptions are modelled with `Except`; the DOM subtrees the renderer
manipulates are modelled by `DomNode` trees, and a component's live
children by a `List DomNode`.
-/

namespace FetchTML

/-- Model of a JavaScript value (numbers restricted to integers, which is
all the claims need; the `undefined` constructor models the JS value of that name). -/
inductive JSValue where
  | undefined : JSValue
  | null : JSValue
  | bool : Bool → JSValue
  | num : Int → JSValue
  | str : String → JSValue
  | arr : List JSValue → JSValue
  | obj : List (String × JSValue) → JSValue
deriving Repr

/-- JS `v == null`, true exactly for `null` and `undefined`. -/
def isNullish : JSValue → Bool
  | .undefined => true
  | .null => true
  | _ => false

/-- JS truthiness test (`!obj`): `undefined`, `null`, `false`, `0` and the
empty string are falsy. -/
def isFalsy : JSValue → Bool
  | .undefined => true
  | .null => true
  | .bool b => !b
  | .num n => n == 0
  | .str s => s == ""
  | _ => false

mutual

/-- JS `String(v)` conversion for the modelled values. -/
def jsToString : JSValue → String
  | .undefined => "undefined"
  | .null => "null"
  | .bool true => "true"
  | .bool false => "false"
  | .num n => toString n
  | .str s => s
  | .arr xs => String.intercalate "," (jsToStringList xs)
  | .obj _ => "[object Object]"

/-- `Array.prototype.toString` stringifies elements, rendering nullish
elements as the empty string. -/
def jsToStringList : List JSValue → List String
  | [] => []
  | x :: xs => (if isNullish x then "" else jsToString x) :: jsToStringList xs

end

/-- JS property read `current[part]` on the modelled values (own
properties only; array index access requires the canonical decimal
numeral, as JS property keys do). -/
def getField : JSValue → String → JSValue
  | .obj fields, k =>
    match fields.lookup k with
    | some v => v
    | none => .undefined
  | .arr xs, k =>
    if k = "length" then .num xs.length
    else
      match k.toNat? with
      | some i => if toString i = k then xs.getD i .undefined else .undefined
      | none => .undefined
  | .str s, k => if k = "length" then .num s.length else .undefined
  | _, _ => .undefined

/-! ## Tokenisation: `path.match(/[^.[\]]+/g)` -/

/-- The separator class of the path-splitting regex: `.`, `[`, `]`. -/
def isSepChar (c : Char) : Bool := c = '.' || c = '[' || c = ']'

/-- Splits a character list into the maximal runs of non-separator
characters, i.e. the matches of `/[^.[\]]+/g`. -/
def tokenizeAux : List Char → List Char → List (List Char)
  | [], acc => if acc.isEmpty then [] else [acc.reverse]
  | c :: cs, acc =>
    if isSepChar c then
      if acc.isEmpty then tokenizeAux cs []
      else acc.reverse :: tokenizeAux cs []
    else tokenizeAux cs (c :: acc)

/-- `path.match(/[^.[\]]+/g)` as a list of segment strings (the JS `null`
result corresponds to the empty list). -/
def tokenize (s : String) : List String :=
  (tokenizeAux s.data []).map (fun cs => String.mk cs)

/-- Quote characters recognised by `normalizeToken`. -/
def isQuoteChar (c : Char) : Bool := c = Char.ofNat 34 || c = Char.ofNat 39

/-- `normalizeToken` from `templating.js`: if a token starts with a quote
character and ends with a quote character and has length at least two,
one character is sliced off each end; otherwise it is unchanged. -/
def normalizeToken (token : String) : String :=
  let cs := token.data
  if 2 ≤ cs.length then
    if isQuoteChar (cs.headD ' ') && isQuoteChar (cs.getLastD ' ') then
      String.mk (cs.drop 1).dropLast
    else token
  else token

/-- The tokens the resolvers actually index with: the regex matches of
the key, each passed through `normalizeToken`. -/
def keyTokens (key : String) : List String :=
  (tokenize key).map normalizeToken

/-! ## Path resolution: `resolvePath` and `resolveValue` -/

/-- The indexing loop shared by `resolvePath` and `resolveValue`:
`for part of parts: if current == null return undefined; current =
current[part]`. -/
def resolveChain (current : JSValue) : List String → JSValue
  | [] => current
  | part :: rest =>
    if isNullish current then .undefined
    else resolveChain (getField current part) rest

/-- `resolvePath(obj, path)` from `templating.js`. -/
def resolvePath (obj : JSValue) (path : String) : JSValue :=
  if isFalsy obj then .undefined
  else
    let parts := keyTokens path
    if parts.isEmpty then .undefined
    else resolveChain obj parts

/-- The resolution context of `resolveValue` (`context` in
`templating.js`); only the fields the resolver and the list renderer
read are modelled, with `undef` standing for an absent property. -/
structure Context where
  ancestors : List JSValue := []
  root : JSValue := .undefined
  data : JSValue := .undefined
  parent : JSValue := .null
  index : Nat := 0
  first : Bool := false
  last : Bool := false
deriving Repr

/-- The `while (tokens[index] === 'parent')` loop of `resolveValue`:
walks `ancestors` one step per leading `parent` token, returning
`undefined` when the ancestor list is exhausted, the current ancestor
when the tokens run out, and otherwise indexing the remaining tokens
into the reached ancestor. -/
def resolveParents (ancestors : List JSValue) : Nat → JSValue → List String → JSValue
  | _, current, [] => current
  | depth, current, tok :: rest =>
    if tok = "parent" then
      if ancestors.length ≤ depth then .undefined
      else resolveParents ancestors (depth + 1) (ancestors.getD depth .undefined) rest
    else resolveChain current (tok :: rest)

/-- Dispatch on the first token of `resolveValue`: `parent` enters the
ancestor walk, `root` rebases to `context.root` (falling back to `data`
when nullish), `data`/`this` rebase explicitly to the current item, and
anything else resolves from the current item. -/
def resolveTokens (data : JSValue) (ctx : Context) : List String → JSValue
  | [] => .undefined
  | t0 :: rest =>
    if t0 = "parent" then
      if ctx.ancestors.isEmpty then .undefined
      else resolveParents ctx.ancestors 0 .undefined (t0 :: rest)
    else if t0 = "root" then
      resolveChain (if isNullish ctx.root then data else ctx.root) rest
    else if t0 = "data" || t0 = "this" then
      resolveChain data rest
    else
      resolveChain data (t0 :: rest)

/-- `resolveValue(data, key, context)` from `templating.js`. -/
def resolveValue (data : JSValue) (key : String) (ctx : Context) : JSValue :=
  if key = "" then .undefined
  else
    let tokens := keyTokens key
    if tokens.isEmpty then .undefined
    else resolveTokens data ctx tokens

/-! ## Placeholder parsing: `parsePlaceholder` -/

/-- Model of `String.prototype.trim` on character lists. -/
def jsTrimChars (cs : List Char) : List Char :=
  ((cs.dropWhile Char.isWhitespace).reverse.dropWhile Char.isWhitespace).reverse

/-- Model of JS `s.trim()`. -/
def jsTrim (s : String) : String :=
  String.mk (jsTrimChars s.data)

/-- `indexOf`-style first split: returns the characters before the first
occurrence of `c` and those after it, or `none` when `c` is absent. -/
def splitFirst (c : Char) : List Char → Option (List Char × List Char)
  | [] => none
  | x :: xs =>
    if x = c then some ([], xs)
    else
      match splitFirst c xs with
      | some (before, after) => some (x :: before, after)
      | none => none

/-- Index of the last occurrence of `c`, as in `String.lastIndexOf`. -/
def lastIdxOf (c : Char) : List Char → Option Nat
  | [] => none
  | x :: xs =>
    match lastIdxOf c xs with
    | some j => some (j + 1)
    | none => if x = c then some 0 else none

/-- JS `String.prototype.split(sep)` for a single-character separator. -/
def splitOnChar (c : Char) : List Char → List (List Char)
  | [] => [[]]
  | x :: xs =>
    if x = c then [] :: splitOnChar c xs
    else
      match splitOnChar c xs with
      | h :: t => (x :: h) :: t
      | [] => [[x]]

/-- The result of `parsePlaceholder`: key, optional formatter name, and
argument tokens. -/
structure Placeholder where
  key : String
  formatter : Option String
  args : List String
deriving Repr, DecidableEq

/-- `formatterPart.slice(parenIndex + 1, formatterPart.lastIndexOf(')'))`
expressed over the split at the first `(`: when the last `)` lies after
the `(` the slice is the prefix of `after` up to it; when the only `)`s
lie before the `(` the slice is empty; when there is no `)` at all the
end index `-1` drops the final character. -/
def argsSlice (before after : List Char) : List Char :=
  match lastIdxOf ')' after with
  | some j => after.take j
  | none => if ')' ∈ before then [] else after.dropLast

/-- `parsePlaceholder(placeholder)` from `templating.js`: strips the
braces, trims, splits off an optional `|formatter(args)` part, and
splits the argument string on commas, trimming each token (no quote
stripping is applied to argument tokens). -/
def parsePlaceholder (placeholder : String) : Placeholder :=
  let content := jsTrimChars ((placeholder.data.drop 1).dropLast)
  match splitFirst '|' content with
  | none => ⟨String.mk content, none, []⟩
  | some (beforePipe, afterPipe) =>
    let key := String.mk (jsTrimChars beforePipe)
    let formatterPart := jsTrimChars afterPipe
    match splitFirst '(' formatterPart with
    | none => ⟨key, some (String.mk formatterPart), []⟩
    | some (beforeParen, afterParen) =>
      let formatterName := String.mk (jsTrimChars beforeParen)
      let argsString := jsTrimChars (argsSlice beforeParen afterParen)
      let args :=
        if argsString.isEmpty then []
        else (splitOnChar ',' argsString).map (fun cs => String.mk (jsTrimChars cs))
      ⟨key, some formatterName, args⟩

/-! ## Formatter registry: `formatters.js` -/

/-- A registered formatter; a thrown exception is modelled by
`Except.error`. -/
def FormatterFn := JSValue → List String → Context → Except String JSValue

/-- The formatter registry (`Map` of name to function). -/
def Registry := List (String × FormatterFn)

namespace Formatters

/-- `formatters.has(name)`. -/
def hasF (reg : Registry) (name : String) : Bool :=
  (List.lookup name reg).isSome

/-- `formatters.apply(name, value, args, context)` from `formatters.js`:
an unknown name logs a warning and returns the value unchanged; a
formatter that throws logs an error and returns the value unchanged;
otherwise the formatter's result is returned. The total return type
records that no exception escapes. -/
def apply (reg : Registry) (name : String) (value : JSValue)
    (args : List String) (ctx : Context) : JSValue :=
  match List.lookup name reg with
  | none => value
  | some f =>
    match f value args ctx with
    | .ok r => r
    | .error _ => value

end Formatters

/-! ## Placeholder substitution: `replacePlaceholders` -/

/-- If a nullish value reaches substitution the empty string is emitted;
otherwise `String(value)` (`value != null ? String(value) : ''`). -/
def substString (v : JSValue) : String :=
  if isNullish v then "" else jsToString v

/-- The replacer callback of `template.replace(/\{[^}]+\}/g, ...)`:
parse the matched placeholder, resolve its key, apply the formatter
when one is named and registered (JS tests `formatter &&
formatters.has(formatter)`, so the empty name is skipped), then
stringify. -/
def replacerFn (reg : Registry) (data : JSValue) (ctx : Context)
    (matched : String) : String :=
  let ph := parsePlaceholder matched
  let value := resolveValue data ph.key ctx
  let value :=
    match ph.formatter with
    | some f =>
      if f ≠ "" && Formatters.hasF reg f then
        Formatters.apply reg f value ph.args { ctx with data := data }
      else value
    | none => value
  substString value

/-- Global-replace scanner for the regex `\{[^}]+\}`. The second
argument is `none` outside a candidate match and `some buf` after an
opening brace, holding the reversed content characters seen so far
(which may include further `{`, as `[^}]` does). An empty candidate
(`\x7b\x7d`) fails to match and is emitted verbatim; an unclosed
candidate at the end of input is likewise verbatim. -/
def scanAux (f : String → String) : List Char → Option (List Char) → List Char
  | [], none => []
  | [], some buf => '{' :: buf.reverse
  | c :: cs, none =>
    if c = '{' then scanAux f cs (some [])
    else c :: scanAux f cs none
  | c :: cs, some buf =>
    if c = '}' then
      if buf.isEmpty then '{' :: '}' :: scanAux f cs none
      else (f (String.mk ('{' :: (buf.reverse ++ ['}'])))).data ++ scanAux f cs none
    else scanAux f cs (some (c :: buf))

/-- `replacePlaceholders(template, data, context)` from `templating.js`,
parameterised by the (globally mutable) formatter registry. -/
def replacePlaceholders (reg : Registry) (template : String) (data : JSValue)
    (ctx : Context) : String :=
  String.mk (scanAux (replacerFn reg data ctx) template.data none)

/-! ## Template instantiation and list rendering -/

/-- A DOM subtree: text nodes and element nodes with attributes. -/
inductive DomNode where
  | text : String → DomNode
  | elem : String → List (String × String) → List DomNode → DomNode
deriving Repr

/-- Whether a node is an element node (`nodeType === Node.ELEMENT_NODE`). -/
def DomNode.isElem : DomNode → Bool
  | .text _ => false
  | .elem _ _ _ => true

mutual

/-- The substitution pass of `processTemplate`: every text node whose
value contains `{` and every attribute value containing `{` is run
through `replacePlaceholders`. -/
def substNode (reg : Registry) (data : JSValue) (ctx : Context) : DomNode → DomNode
  | .text s =>
    .text (if '{' ∈ s.data then replacePlaceholders reg s data ctx else s)
  | .elem tag attrs children =>
    .elem tag
      (attrs.map (fun a =>
        (a.1, if '{' ∈ a.2.data then replacePlaceholders reg a.2 data ctx else a.2)))
      (substNodeList reg data ctx children)

def substNodeList (reg : Registry) (data : JSValue) (ctx : Context) :
    List DomNode → List DomNode
  | [] => []
  | n :: ns => substNode reg data ctx n :: substNodeList reg data ctx ns

end

/-- `processTemplate(template, data, context)` on a template fragment:
clones it (pure here), substitutes placeholders in all text nodes and
attributes, and — when the fragment has no element children — wraps the
result in a `span` element. The returned list is the sequence of child
nodes that will be appended. -/
def processTemplate (reg : Registry) (frag : List DomNode) (data : JSValue)
    (ctx : Context) : List DomNode :=
  let processed := substNodeList reg data ctx frag
  if processed.any DomNode.isElem then processed
  else [DomNode.elem "span" [] processed]

/-- Per-item descriptor produced by `renderList`. -/
structure Descriptor where
  data : JSValue
  parent : JSValue
  root : JSValue
  ancestors : List JSValue
  nodes : List DomNode
deriving Repr

/-- The options object of `renderList`: an optional parent descriptor
(`options.parentContext`) and the `root` property of `options.context`
(`undef` models an absent property). -/
structure RenderOptions where
  parentContext : Option Descriptor := none
  contextRoot : JSValue := .undefined

/-- `ancestors` for one item: `[parentContext.data,
...(parentContext.ancestors || [])]` when nested, else empty. -/
def itemAncestors (opts : RenderOptions) : List JSValue :=
  match opts.parentContext with
  | some pc => pc.data :: pc.ancestors
  | none => []

/-- `root` for one item: `parentContext.root` when nested, else
`extraContext.root ?? item`. -/
def itemRoot (opts : RenderOptions) (item : JSValue) : JSValue :=
  match opts.parentContext with
  | some pc => pc.root
  | none => if isNullish opts.contextRoot then item else opts.contextRoot

/-- `parent` for one item: `parentContext ? parentContext.data : null`. -/
def itemParent (opts : RenderOptions) : JSValue :=
  match opts.parentContext with
  | some pc => pc.data
  | none => .null

/-- The context object `renderList` builds for the item at index `i` of
an `n`-item list. -/
def itemContext (opts : RenderOptions) (n i : Nat) (item : JSValue) : Context :=
  { index := i
    first := i = 0
    last := i = n - 1
    parent := itemParent opts
    root := itemRoot opts item
    ancestors := itemAncestors opts
    data := item }

/-- One iteration of the `items.forEach` body of `renderList`: renders
the item and returns the nodes to append together with the item's
descriptor (whose `nodes` are the element children of the rendered
fragment, captured before appending). -/
def renderItem (reg : Registry) (tplContent : List DomNode) (opts : RenderOptions)
    (n i : Nat) (item : JSValue) : List DomNode × Descriptor :=
  let ctx := itemContext opts n i item
  let rendered := processTemplate reg tplContent item ctx
  (rendered,
    { data := item
      parent := itemParent opts
      root := itemRoot opts item
      ancestors := itemAncestors opts
      nodes := rendered.filter DomNode.isElem })

/-- `renderList(items, template, options)` from `templating.js`. The
template argument is the already-extracted template content
(`getTemplateContent`), with `none` modelling a missing/empty template.
Non-array or empty `items` short-circuit to an empty fragment and empty
descriptor list before the template is even consulted; a missing
template logs a warning and likewise yields empty results. -/
def renderList (reg : Registry) (items : JSValue)
    (template : Option (List DomNode)) (opts : RenderOptions) :
    List DomNode × List Descriptor :=
  match items with
  | .arr list =>
    if list.isEmpty then ([], [])
    else
      match template with
      | none => ([], [])
      | some tplContent =>
        let n := list.length
        let results := (List.range n).zipWith
          (fun i item => renderItem reg tplContent opts n i item) list
        (results.flatMap Prod.fst, results.map Prod.snd)
  | _ => ([], [])

/-! ## fetch-list component lifecycle (`fetch-list.js`) -/

/-- The component states written to the `data-state` attribute. -/
inductive CompState where
  | idle
  | loading
  | ready
  | empty
  | error
deriving Repr, DecidableEq

/-- Observable effects of one `processFetchList` run, in order: hook
invocation points and the moment the fetch is issued. -/
inductive Event where
  | stateChange : CompState → Event
  | fetchIssued : Event
  | hookBeforeRender : Event
  | hookAfterRender : Event
  | hookError : Event
deriving Repr, DecidableEq

/-- The mutable element-side state of a fetch-list component: the value
of its `data-state` attribute (`none` before any run) and its current
child content. -/
structure Component where
  state : Option CompState := none
  content : List DomNode := []
deriving Repr

/-- Static configuration read from the element's attributes: the state
templates (`placeholder`, `empty`, `error` attributes) and the item
template, each as already-extracted content, plus the `root` passed via
`options.context`. -/
structure CompConfig where
  placeholderTpl : Option (List DomNode) := none
  emptyTpl : Option (List DomNode) := none
  errorTpl : Option (List DomNode) := none
  itemTpl : Option (List DomNode) := none
  contextRoot : JSValue := .undefined

/-- `renderStateTemplate`: clears the element and inserts the state
template's content. -/
def renderStateTemplate (comp : Component) (tpl : List DomNode) : Component :=
  { comp with content := tpl }

/-- `renderItems(element, items, options)`: finds the item template (a
missing template logs an error and leaves the element untouched), runs
`renderList`, then clears the element and appends the fresh fragment —
each render pass replaces all previously rendered children. Returns the
updated component and the hook events fired. -/
def renderItems (reg : Registry) (cfg : CompConfig) (items : List JSValue)
    (comp : Component) : Component × List Event :=
  match cfg.itemTpl with
  | none => (comp, [])
  | some tpl =>
    let (fragment, _descriptors) :=
      renderList reg (.arr items) (some tpl) { contextRoot := cfg.contextRoot }
    ({ comp with content := fragment },
      [Event.hookBeforeRender, Event.hookAfterRender])

/-- `processFetchList(element, options)` from `fetch-list.js`, with the
awaited fetch outcome supplied as `result` (`Except.error` models a
rejected fetch, a non-ok response, or malformed JSON). A component
already in the `loading` state returns immediately: no fetch, no state
change, no hooks. Otherwise the state machine runs: `loading` (with
optional placeholder view) → fetch → `ready` (render items), `empty`
(empty view or cleared content), or `error` (error view when configured;
the prior content is NOT cleared otherwise — the error is also
re-thrown to the caller, which the event trace does not model). -/
def processFetchList (reg : Registry) (cfg : CompConfig)
    (result : Except String JSValue) (comp : Component) :
    Component × List Event :=
  if comp.state = some .loading then (comp, [])
  else
    let comp := { comp with state := some CompState.loading }
    let comp :=
      match cfg.placeholderTpl with
      | some tpl => renderStateTemplate comp tpl
      | none => comp
    let evs := [Event.stateChange .loading, Event.fetchIssued]
    match result with
    | .ok data =>
      let items := match data with | .arr xs => xs | _ => []
      if items.isEmpty then
        let comp :=
          { comp with
            state := some CompState.empty
            content := match cfg.emptyTpl with | some tpl => tpl | none => [] }
        (comp, evs ++ [Event.stateChange .empty])
      else
        let (comp, renderEvs) := renderItems reg cfg items comp
        ({ comp with state := some CompState.ready },
          evs ++ renderEvs ++ [Event.stateChange .ready])
    | .error _ =>
      let comp := { comp with state := some CompState.error }
      let comp :=
        match cfg.errorTpl with
        | some tpl => renderStateTemplate comp tpl
        | none => comp
      (comp, evs ++ [Event.hookError, Event.stateChange .error])

/-- The controller's `reload(overrides)`: merges the stored options with
the overrides and re-runs `processFetchList` on the retained element.
Option merging does not affect the DOM outcome for fixed `cfg` and
`result`, so reload is exactly one `processFetchList` run. -/
def reload (reg : Registry) (cfg : CompConfig) (result : Except String JSValue)
    (comp : Component) : Component × List Event :=
  processFetchList reg cfg result comp

/-- A registry with one formatter that always throws and one that
returns a constant, used to witness **C2** at concrete inputs. -/
def sampleRegistry : Registry :=
  [("boom", fun _ _ _ => .error "fail"),
   ("one", fun _ _ _ => .ok (.num 1))]
/-- The items a fetch payload yields: `Array.isArray(data) ? data : []`. -/
def itemsOf : JSValue → List JSValue
  | .arr xs => xs
  | _ => []
/-- The state a non-no-op `processFetchList` run ends in. -/
def finalState (result : Except String JSValue) : CompState :=
  match result with
  | .error _ => .error
  | .ok data => if (itemsOf data).isEmpty then .empty else .ready
/-- The content a non-no-op `processFetchList` run leaves behind, as a
function of the configuration, the fetch outcome, and the content the
element had before the run. -/
def finalContent (reg : Registry) (cfg : CompConfig)
    (result : Except String JSValue) (prev : List DomNode) : List DomNode :=
  let afterPlaceholder :=
    match cfg.placeholderTpl with
    | some p => p
    | none => prev
  match result with
  | .error _ =>
    match cfg.errorTpl with
    | some t => t
    | none => afterPlaceholder
  | .ok data =>
    let items := itemsOf data
    if items.isEmpty then
      match cfg.emptyTpl with
      | some t => t
      | none => []
    else
      match cfg.itemTpl with
      | none => afterPlaceholder
      | some tpl =>
        (renderList reg (.arr items) (some tpl)
          { contextRoot := cfg.contextRoot }).1
/-- The event trace of a non-no-op `processFetchList` run. -/
def runEvents (cfg : CompConfig) (result : Except String JSValue) : List Event :=
  [Event.stateChange .loading, Event.fetchIssued] ++
  match result with
  | .error _ => [Event.hookError, Event.stateChange .error]
  | .ok data =>
    if (itemsOf data).isEmpty then [Event.stateChange .empty]
    else
      (match cfg.itemTpl with
       | none => []
       | some _ => [Event.hookBeforeRender, Event.hookAfterRender]) ++
      [Event.stateChange .ready]
/-- The accumulator state of `tokenizeAux` after scanning a prefix. -/
def accAfter : List Char → List Char → List Char
  | [], acc => acc
  | c :: cs, acc =>
    if isSepChar c then accAfter cs []
    else accAfter cs (c :: acc)
/-- The tokens `tokenizeAux` emits while scanning a prefix. -/
def emitted : List Char → List Char → List (List Char)
  | [], _ => []
  | c :: cs, acc =>
    if isSepChar c then
      if acc.isEmpty then emitted cs []
      else acc.reverse :: emitted cs []
    else emitted cs (c :: acc)

/-! # Theorems -/

/-- **C2.** For every registry state, name, value, args and context,
`formatters.apply` returns the value unchanged when the name is not
registered, returns the value unchanged when the registered formatter
throws, and otherwise returns the formatter's result. Its total return
type `JSValue` (rather than `Except`) records that no exception is ever
propagated to the caller. -/
theorem apply_never_propagates (reg : Registry) (name : String) (value : JSValue)
    (args : List String) (ctx : Context) :
    (List.lookup name reg = none →
      Formatters.apply reg name value args ctx = value) ∧
    (∀ f e, List.lookup name reg = some f → f value args ctx = .error e →
      Formatters.apply reg name value args ctx = value) ∧
    (∀ f r, List.lookup name reg = some f → f value args ctx = .ok r →
      Formatters.apply reg name value args ctx = r) := by
  refine ⟨fun h => ?_, fun f e hf hr => ?_, fun f r hf hr => ?_⟩
  · simp [Formatters.apply, h]
  · simp [Formatters.apply, hf, hr]
  · simp [Formatters.apply, hf, hr]

/-- Witness for **C2**: on `sampleRegistry`, an unknown name and a
throwing formatter both fall back to the input value, and a succeeding
formatter's result is returned. -/
theorem apply_never_propagates_witness :
    Formatters.apply sampleRegistry "missing" (.str "v") [] {} = .str "v" ∧
    Formatters.apply sampleRegistry "boom" (.str "v") [] {} = .str "v" ∧
    Formatters.apply sampleRegistry "one" (.str "v") [] {} = .num 1 :=
  ⟨(apply_never_propagates sampleRegistry "missing" (.str "v") [] {}).1 rfl,
   (apply_never_propagates sampleRegistry "boom" (.str "v") [] {}).2.1
     (fun _ _ _ => .error "fail") "fail" rfl rfl,
   (apply_never_propagates sampleRegistry "one" (.str "v") [] {}).2.2
     (fun _ _ _ => .ok (.num 1)) (.num 1) rfl rfl⟩

/-- **C5.** `renderList` on a non-array `items` argument, or on the
empty array, returns an empty fragment and an empty descriptor
sequence; its total return type records that no error is signalled. -/
theorem renderList_degenerate (reg : Registry) (items : JSValue)
    (template : Option (List DomNode)) (opts : RenderOptions)
    (h : (∀ xs, items ≠ JSValue.arr xs) ∨ items = JSValue.arr []) :
    renderList reg items template opts = ([], []) := by
  rcases h with h | h
  · cases items <;> first
      | rfl
      | exact absurd rfl (h _)
  · subst h
    rfl

/-- Witness for **C5**: a number (non-array) and the empty array both
yield empty results. -/
theorem renderList_degenerate_witness :
    renderList [] (.num 3) (some [DomNode.text "t"]) {} = ([], []) ∧
    renderList [] (.arr []) (some [DomNode.text "t"]) {} = ([], []) :=
  ⟨renderList_degenerate [] (.num 3) (some [DomNode.text "t"]) {}
      (Or.inl fun _ h => JSValue.noConfusion h),
   renderList_degenerate [] (.arr []) (some [DomNode.text "t"]) {} (Or.inr rfl)⟩

/-- **C7.** A `processFetchList` call on a component already in the
`loading` state is a no-op: the component is returned unchanged and no
events fire — no fetch is issued, no state change happens, and no hook
runs. -/
theorem processFetchList_loading_noop (reg : Registry) (cfg : CompConfig)
    (result : Except String JSValue) (comp : Component)
    (h : comp.state = some CompState.loading) :
    processFetchList reg cfg result comp = (comp, []) := by
  simp [processFetchList, h]

/-- Witness for **C7**: a loading component with content is returned
untouched, with an empty event trace. -/
theorem processFetchList_loading_noop_witness :
    processFetchList [] {} (.ok (.arr [.num 1]))
        { state := some CompState.loading, content := [DomNode.text "spinner"] }
      = ({ state := some CompState.loading,
           content := [DomNode.text "spinner"] }, []) :=
  processFetchList_loading_noop [] {} (.ok (.arr [.num 1]))
    { state := some CompState.loading, content := [DomNode.text "spinner"] } rfl

/-- Closed form of a non-no-op `processFetchList` run: final state,
final content and event trace as functions of configuration, fetch
outcome and prior content. -/
theorem processFetchList_spec (reg : Registry) (cfg : CompConfig)
    (result : Except String JSValue) (comp : Component)
    (h : comp.state ≠ some CompState.loading) :
    processFetchList reg cfg result comp
      = ({ state := some (finalState result),
           content := finalContent reg cfg result comp.content },
         runEvents cfg result) := by
  unfold processFetchList renderItems finalState finalContent runEvents itemsOf
  simp only [if_neg h]
  rcases result with e | data
  · cases cfg.errorTpl <;> cases cfg.placeholderTpl <;>
      simp [renderStateTemplate]
  · cases data <;> cases cfg.placeholderTpl <;> cases cfg.itemTpl <;>
      cases cfg.emptyTpl <;> simp [renderStateTemplate] <;>
      split <;> simp_all

/-- `finalState` is never `loading`: a finished run always rests in
`empty`, `ready` or `error`. -/
theorem finalState_ne_loading (result : Except String JSValue) :
    finalState result ≠ CompState.loading := by
  rcases result with e | data
  · simp [finalState]
  · by_cases hi : (itemsOf data).isEmpty <;> simp [finalState, hi]

/-- `finalContent` is idempotent in the prior content: every branch is
either constant (a template or a freshly rendered fragment) or the
identity (the fall-through cases in which nothing is written). -/
theorem finalContent_idem (reg : Registry) (cfg : CompConfig)
    (result : Except String JSValue) (prev : List DomNode) :
    finalContent reg cfg result (finalContent reg cfg result prev)
      = finalContent reg cfg result prev := by
  unfold finalContent
  rcases result with e | data
  · cases cfg.errorTpl <;> cases cfg.placeholderTpl <;> simp
  · by_cases hi : (itemsOf data).isEmpty
    · cases cfg.emptyTpl <;> simp [hi]
    · cases cfg.itemTpl <;> cases cfg.placeholderTpl <;> simp [hi]

/-- **C6.** Reloading an already-`ready` component twice in succession
with identical data yields output equal to a single reload: each render
pass assigns the freshly rendered children in place of all previously
rendered content (`innerHTML = ''` followed by a single append), so
repeated reloads leave no duplicate or orphaned nodes. The whole
observable outcome — final content, final state and event trace — of the
second reload equals that of the first. -/
theorem reload_idempotent (reg : Registry) (cfg : CompConfig)
    (result : Except String JSValue) (comp : Component)
    (h : comp.state = some CompState.ready) :
    reload reg cfg result (reload reg cfg result comp).1
      = reload reg cfg result comp := by
  have h0 : comp.state ≠ some CompState.loading := by
    rw [h]; intro hx; cases hx
  show processFetchList reg cfg result
      (processFetchList reg cfg result comp).1
    = processFetchList reg cfg result comp
  rw [processFetchList_spec reg cfg result comp h0]
  rw [processFetchList_spec reg cfg result _
    (by
      intro hx
      exact finalState_ne_loading result (Option.some.inj hx))]
  simp [finalContent_idem]

/-- Witness for **C6**: a concrete ready component, an item template
with a placeholder, and one-item data; reloading twice equals reloading
once. -/
theorem reload_idempotent_witness :
    reload [] { itemTpl := some [DomNode.elem "p" [] [DomNode.text "\x7bname\x7d"]] }
        (.ok (.arr [.obj [("name", .str "Ada")]]))
        ((reload []
            { itemTpl := some [DomNode.elem "p" [] [DomNode.text "\x7bname\x7d"]] }
            (.ok (.arr [.obj [("name", .str "Ada")]]))
            { state := some CompState.ready,
              content := [DomNode.text "stale"] }).1)
      = reload [] { itemTpl := some [DomNode.elem "p" [] [DomNode.text "\x7bname\x7d"]] }
          (.ok (.arr [.obj [("name", .str "Ada")]]))
          { state := some CompState.ready, content := [DomNode.text "stale"] } :=
  reload_idempotent []
    { itemTpl := some [DomNode.elem "p" [] [DomNode.text "\x7bname\x7d"]] }
    (.ok (.arr [.obj [("name", .str "Ada")]]))
    { state := some CompState.ready, content := [DomNode.text "stale"] } rfl

/-- Behaviour of the `parent` loop on `k` leading `parent` tokens
followed by tokens that do not start with another `parent`: starting at
`depth`, the loop steps through `ancestors` and either exhausts it
(returning `undefined`) or rebases to `ancestors[depth + k - 1]` and
indexes the remaining tokens from there. -/
theorem resolveParents_replicate (anc : List JSValue) (rest : List String)
    (hrest : rest.head? ≠ some "parent") :
    ∀ (k : Nat), 1 ≤ k → ∀ (depth : Nat) (cur : JSValue),
      resolveParents anc depth cur (List.replicate k "parent" ++ rest)
        = if anc.length < depth + k then JSValue.undefined
          else resolveChain (anc.getD (depth + k - 1) JSValue.undefined) rest := by
  intro k
  induction k with
  | zero => intro h; exact absurd h (by omega)
  | succ k ih =>
    intro _ depth cur
    rw [List.replicate_succ, List.cons_append]
    by_cases hb : anc.length ≤ depth
    · have hlt : anc.length < depth + (k + 1) := by omega
      simp [resolveParents, hb, hlt]
    · rcases Nat.eq_zero_or_pos k with rfl | hk1
      · have hge : ¬ anc.length < depth + (0 + 1) := by omega
        cases rest with
        | nil => simp [resolveParents, hb, hge, resolveChain]
        | cons r rs =>
          have hr : ¬ r = "parent" := by
            intro hc
            exact hrest (by simp [hc])
          simp [resolveParents, hb, hge, hr]
      · have e1 : depth + (k + 1) = (depth + 1) + k := by omega
        rw [e1]
        simp only [resolveParents, if_pos rfl, if_neg hb]
        exact ih hk1 (depth + 1) (anc.getD depth .undefined)

/-- **C3.** When the key's token sequence consists of `k ≥ 1` leading
literal `parent` segments followed by tokens not starting with another
`parent`, `resolveValue` rebases to `ancestors[k-1]` and indexes the
remaining segments from there, and resolves to `undefined` whenever `k`
exceeds the length of the ancestor list. -/
theorem resolveValue_parent_chain (data : JSValue) (key : String) (ctx : Context)
    (k : Nat) (rest : List String) (hk : 1 ≤ k)
    (htok : keyTokens key = List.replicate k "parent" ++ rest)
    (hrest : rest.head? ≠ some "parent") :
    resolveValue data key ctx
      = if ctx.ancestors.length < k then JSValue.undefined
        else resolveChain (ctx.ancestors.getD (k - 1) JSValue.undefined) rest := by
  obtain ⟨m, rfl⟩ : ∃ m, k = m + 1 := ⟨k - 1, by omega⟩
  have hkey : key ≠ "" := by
    intro h
    rw [h] at htok
    have : ([] : List String) = List.replicate (m + 1) "parent" ++ rest := htok
    simp [List.replicate_succ] at this
  unfold resolveValue
  rw [if_neg hkey]
  simp only [htok, List.replicate_succ, List.cons_append, List.isEmpty_cons,
    Bool.false_eq_true, if_false]
  show resolveTokens data ctx ("parent" :: (List.replicate m "parent" ++ rest)) = _
  unfold resolveTokens
  simp only [if_pos (by rfl : "parent" = "parent")]
  by_cases hanc : ctx.ancestors.isEmpty
  · have h0 : ctx.ancestors.length = 0 := by
      cases hl : ctx.ancestors
      · rfl
      · rw [hl] at hanc; simp at hanc
    have : ctx.ancestors.length < m + 1 := by omega
    simp [hanc, this]
  · rw [if_neg hanc]
    have := resolveParents_replicate ctx.ancestors rest hrest (m + 1)
      (by omega) 0 .undefined
    rw [List.replicate_succ, List.cons_append] at this
    rw [this]
    simp [Nat.zero_add]

/-- Witness for **C3**: with two ancestors, `parent.parent.x` reads
field `x` of the grandparent, and `parent.parent.parent.x` (three
`parent` segments against two ancestors) is `undefined`. -/
theorem resolveValue_parent_chain_witness :
    resolveValue (.obj [("x", .num 2)]) "parent.parent.x"
        { ancestors := [.obj [("x", .num 7)], .obj [("x", .num 9)]] }
      = .num 9 ∧
    resolveValue (.obj [("x", .num 2)]) "parent.parent.parent.x"
        { ancestors := [.obj [("x", .num 7)], .obj [("x", .num 9)]] }
      = .undefined := by
  constructor
  · have h := resolveValue_parent_chain (.obj [("x", .num 2)]) "parent.parent.x"
      { ancestors := [.obj [("x", .num 7)], .obj [("x", .num 9)]] } 2 ["x"]
      (by decide) (by decide) (by decide)
    rw [h]; rfl
  · have h := resolveValue_parent_chain (.obj [("x", .num 2)])
      "parent.parent.parent.x"
      { ancestors := [.obj [("x", .num 7)], .obj [("x", .num 9)]] } 3 ["x"]
      (by decide) (by decide) (by decide)
    rw [h]; rfl

/-- Splitting lemma for the tokenizer: scanning `xs ++ ys` emits the
tokens of the prefix and then continues on `ys` from the accumulator
state the prefix leaves behind. -/
theorem tokenizeAux_append (xs : List Char) :
    ∀ (ys acc : List Char),
      tokenizeAux (xs ++ ys) acc
        = emitted xs acc ++ tokenizeAux ys (accAfter xs acc) := by
  induction xs with
  | nil => intro ys acc; simp [emitted, accAfter]
  | cons c cs ih =>
    intro ys acc
    by_cases hc : isSepChar c
    · by_cases ha : acc.isEmpty <;>
        simp [tokenizeAux, emitted, accAfter, hc, ha, ih]
    · simp [tokenizeAux, emitted, accAfter, hc, ih]

/-- A separator-free prefix emits nothing. -/
theorem emitted_nonsep (xs : List Char) (h : ∀ c ∈ xs, isSepChar c = false) :
    ∀ acc, emitted xs acc = [] := by
  induction xs with
  | nil => intro acc; rfl
  | cons c cs ih =>
    intro acc
    have hc : isSepChar c = false := h c (by simp)
    simp only [emitted, hc, Bool.false_eq_true, if_false]
    exact ih (fun c hm => h c (by simp [hm])) (c :: acc)

/-- A separator-free prefix pushes all its characters onto the
accumulator. -/
theorem accAfter_nonsep (xs : List Char) (h : ∀ c ∈ xs, isSepChar c = false) :
    ∀ acc, accAfter xs acc = xs.reverse ++ acc := by
  induction xs with
  | nil => intro acc; rfl
  | cons c cs ih =>
    intro acc
    have hc : isSepChar c = false := h c (by simp)
    simp only [accAfter, hc, Bool.false_eq_true, if_false]
    rw [ih (fun c hm => h c (by simp [hm])) (c :: acc)]
    simp

/-- Core of **C10** on character lists: after any common prefix, a
nonempty separator-free segment reached via `[` and left via `].` is
tokenised exactly like the same segment reached and left via `.`. -/
theorem tokenizeAux_bracket_eq_dot (a b d : List Char) (hd1 : d ≠ [])
    (hd2 : ∀ c ∈ d, isSepChar c = false) (acc : List Char) :
    tokenizeAux (a ++ '[' :: (d ++ ']' :: '.' :: b)) acc
      = tokenizeAux (a ++ '.' :: (d ++ '.' :: b)) acc := by
  rw [tokenizeAux_append a, tokenizeAux_append a]
  congr 1
  generalize accAfter a acc = acc0
  have key : tokenizeAux (d ++ ']' :: '.' :: b) [] = tokenizeAux (d ++ '.' :: b) [] := by
    rw [tokenizeAux_append d, tokenizeAux_append d,
      emitted_nonsep d hd2, accAfter_nonsep d hd2]
    have hrev : (d.reverse ++ []).isEmpty = false := by
      simp [List.isEmpty_iff, hd1]
    simp only [tokenizeAux, isSepChar]
    simp [hrev, List.isEmpty_iff, hd1]
  by_cases h0 : acc0.isEmpty <;>
    simp [tokenizeAux, isSepChar, h0, key]

/-- `isSepChar` rejects every character `Nat.digitChar` can produce. -/
theorem digitChar_not_sep (m : Nat) : isSepChar (Nat.digitChar m) = false := by
  by_cases h : m < 16
  · interval_cases m <;> decide
  · have h0 : ¬ m = 0 := by omega
    have h1 : ¬ m = 1 := by omega
    have h2 : ¬ m = 2 := by omega
    have h3 : ¬ m = 3 := by omega
    have h4 : ¬ m = 4 := by omega
    have h5 : ¬ m = 5 := by omega
    have h6 : ¬ m = 6 := by omega
    have h7 : ¬ m = 7 := by omega
    have h8 : ¬ m = 8 := by omega
    have h9 : ¬ m = 9 := by omega
    have h10 : ¬ m = 10 := by omega
    have h11 : ¬ m = 11 := by omega
    have h12 : ¬ m = 12 := by omega
    have h13 : ¬ m = 13 := by omega
    have h14 : ¬ m = 14 := by omega
    have h15 : ¬ m = 15 := by omega
    simp only [Nat.digitChar, if_neg h0, if_neg h1, if_neg h2, if_neg h3,
      if_neg h4, if_neg h5, if_neg h6, if_neg h7, if_neg h8, if_neg h9,
      if_neg h10, if_neg h11, if_neg h12, if_neg h13, if_neg h14, if_neg h15]
    rfl

/-- All characters produced by `Nat.toDigitsCore` on a separator-free
seed are separator-free. -/
theorem toDigitsCore_not_sep (fuel : Nat) :
    ∀ (n : Nat) (ds : List Char), (∀ c ∈ ds, isSepChar c = false) →
      ∀ c ∈ Nat.toDigitsCore 10 fuel n ds, isSepChar c = false := by
  induction fuel with
  | zero => intro n ds hds; simpa [Nat.toDigitsCore] using hds
  | succ fuel ih =>
    intro n ds hds c hc
    simp only [Nat.toDigitsCore] at hc
    by_cases h0 : n / 10 = 0
    · rw [if_pos h0] at hc
      rcases List.mem_cons.mp hc with rfl | hmem
      · exact digitChar_not_sep _
      · exact hds c hmem
    · rw [if_neg h0] at hc
      refine ih (n / 10) (Nat.digitChar (n % 10) :: ds) ?_ c hc
      intro c' hc'
      rcases List.mem_cons.mp hc' with rfl | hmem
      · exact digitChar_not_sep _
      · exact hds c' hmem

/-- `Nat.toDigitsCore` with positive fuel (or a nonempty seed) never
returns the empty list. -/
theorem toDigitsCore_ne_nil (fuel : Nat) :
    ∀ (n : Nat) (ds : List Char), 0 < fuel ∨ ds ≠ [] →
      Nat.toDigitsCore 10 fuel n ds ≠ [] := by
  induction fuel with
  | zero =>
    intro n ds h
    rcases h with h | h
    · omega
    · simpa [Nat.toDigitsCore] using h
  | succ fuel ih =>
    intro n ds _
    simp only [Nat.toDigitsCore]
    split
    · simp
    · exact ih (n / 10) _ (Or.inr (by simp))

/-- The characters of `toString n` for a natural number are exactly
`Nat.toDigits 10 n`. -/
theorem toString_nat_data (n : Nat) : (toString n).data = Nat.toDigits 10 n := rfl

/-- **C10.** Path segmentation does not distinguish bracket index
notation from dot notation: for every object, segments `a` and `b`, and
natural number `n`, the paths `a[n].b` and `a.n.b` split into the same
token sequence, and `resolvePath` gives the same result on both. (The
prefix `a` and suffix `b` are arbitrary strings, so this covers every
property chain around the index.) -/
theorem resolvePath_bracket_eq_dot (obj : JSValue) (a b : String) (n : Nat) :
    tokenize (a ++ "[" ++ toString n ++ "]." ++ b)
      = tokenize (a ++ "." ++ toString n ++ "." ++ b) ∧
    resolvePath obj (a ++ "[" ++ toString n ++ "]." ++ b)
      = resolvePath obj (a ++ "." ++ toString n ++ "." ++ b) := by
  have hd1 : (toString n).data ≠ [] := by
    rw [toString_nat_data]
    exact toDigitsCore_ne_nil (n + 1) n [] (Or.inl (by omega))
  have hd2 : ∀ c ∈ (toString n).data, isSepChar c = false := by
    rw [toString_nat_data]
    exact toDigitsCore_not_sep (n + 1) n [] (by intro c hc; cases hc)
  have hdata1 : (a ++ "[" ++ toString n ++ "]." ++ b).data
      = a.data ++ '[' :: ((toString n).data ++ ']' :: '.' :: b.data) := by
    simp [String.data_append]
  have hdata2 : (a ++ "." ++ toString n ++ "." ++ b).data
      = a.data ++ '.' :: ((toString n).data ++ '.' :: b.data) := by
    simp [String.data_append]
  have ht : tokenize (a ++ "[" ++ toString n ++ "]." ++ b)
      = tokenize (a ++ "." ++ toString n ++ "." ++ b) := by
    unfold tokenize
    rw [hdata1, hdata2, tokenizeAux_bracket_eq_dot _ _ _ hd1 hd2]
  refine ⟨ht, ?_⟩
  unfold resolvePath keyTokens
  rw [ht]

/-- Tokenising `root.` followed by anything yields the `root` token and
then the tokens of the remainder. -/
theorem tokenize_root_head (x : String) :
    tokenize ("root." ++ x) = "root" :: tokenize x := by
  unfold tokenize
  have hd : ("root." ++ x).data
      = ('r' :: 'o' :: 'o' :: 't' :: '.' :: []) ++ x.data := by
    rw [String.data_append]
  rw [hd, tokenizeAux_append]
  have he : emitted ('r' :: 'o' :: 'o' :: 't' :: '.' :: []) []
      = [['r', 'o', 'o', 't']] := rfl
  have ha : accAfter ('r' :: 'o' :: 'o' :: 't' :: '.' :: []) [] = [] := rfl
  rw [he, ha]
  simp only [List.map_append, List.map_cons, List.map_nil, List.singleton_append]

/-- Tokenising `data.` followed by anything yields the `data` token and
then the tokens of the remainder. -/
theorem tokenize_data_head (x : String) :
    tokenize ("data." ++ x) = "data" :: tokenize x := by
  unfold tokenize
  have hd : ("data." ++ x).data
      = ('d' :: 'a' :: 't' :: 'a' :: '.' :: []) ++ x.data := by
    rw [String.data_append]
  rw [hd, tokenizeAux_append]
  have he : emitted ('d' :: 'a' :: 't' :: 'a' :: '.' :: []) []
      = [['d', 'a', 't', 'a']] := rfl
  have ha : accAfter ('d' :: 'a' :: 't' :: 'a' :: '.' :: []) [] = [] := rfl
  rw [he, ha]
  simp only [List.map_append, List.map_cons, List.map_nil, List.singleton_append]

/-- In a context whose `root` is the current item itself, the paths
`root.x` and `data.x` resolve identically for every suffix `x`. -/
theorem resolveValue_root_eq_data (item : JSValue) (ctx : Context) (x : String)
    (hroot : ctx.root = item) :
    resolveValue item ("root." ++ x) ctx = resolveValue item ("data." ++ x) ctx := by
  have hne1 : ("root." ++ x) ≠ "" := by
    intro h
    have := congrArg String.data h
    rw [String.data_append] at this
    cases this
  have hne2 : ("data." ++ x) ≠ "" := by
    intro h
    have := congrArg String.data h
    rw [String.data_append] at this
    cases this
  have hk1 : keyTokens ("root." ++ x) = "root" :: keyTokens x := by
    unfold keyTokens
    rw [tokenize_root_head]
    rfl
  have hk2 : keyTokens ("data." ++ x) = "data" :: keyTokens x := by
    unfold keyTokens
    rw [tokenize_data_head]
    rfl
  unfold resolveValue
  rw [if_neg hne1, if_neg hne2]
  simp only [hk1, hk2, List.isEmpty_cons, Bool.false_eq_true, if_false]
  unfold resolveTokens
  simp only [if_neg (by decide : ¬ ("root" : String) = "parent"),
    if_neg (by decide : ¬ ("data" : String) = "parent"),
    if_pos (rfl : ("root" : String) = "root"),
    if_neg (by decide : ¬ ("data" : String) = "root"),
    if_pos (by decide : (("data" : String) = "data" || ("data" : String) = "this") = true)]
  rw [hroot]
  cases hi : isNullish item <;> simp [hi]

/-- Generic helper: every element of a `zipWith` satisfies a predicate
holding of all images. -/
theorem zipWith_forall {α β γ : Type _} (f : α → β → γ) (P : γ → Prop)
    (h : ∀ a b, P (f a b)) :
    ∀ (l1 : List α) (l2 : List β), ∀ c ∈ List.zipWith f l1 l2, P c := by
  intro l1
  induction l1 with
  | nil => intro l2 c hc; cases hc
  | cons a l1 ih =>
    intro l2 c hc
    cases l2 with
    | nil => cases hc
    | cons b l2 =>
      rcases List.mem_cons.mp hc with rfl | hm
      · exact h a b
      · exact ih l2 c hm

/-- **C9.** At a top-level `renderList` (no parent context) with no
explicit root supplied, the context root defaults to the current item
itself — every descriptor's `root` is its own `data`, and for every
suffix `x` the paths `root.x` and `data.x` resolve to the same value in
the item's context. And only there: a nested render (with a parent
context carrying a different root) exists in which `root.x` and `data.x`
resolve differently. -/
theorem top_level_root_defaults_to_item (opts : RenderOptions) (n i : Nat)
    (item : JSValue) (x : String) (reg : Registry) (list : List JSValue)
    (tpl : List DomNode)
    (hpc : opts.parentContext = none) (hroot : isNullish opts.contextRoot = true) :
    ((itemContext opts n i item).root = item ∧
      resolveValue item ("root." ++ x) (itemContext opts n i item)
        = resolveValue item ("data." ++ x) (itemContext opts n i item)) ∧
    (∀ d ∈ (renderList reg (.arr list) (some tpl) opts).2, d.root = d.data) ∧
    (∃ (pcd : Descriptor) (optsN : RenderOptions) (itemN : JSValue) (m j : Nat),
      optsN.parentContext = some pcd ∧
      resolveValue itemN "root.x" (itemContext optsN m j itemN)
        ≠ resolveValue itemN "data.x" (itemContext optsN m j itemN)) := by
  have hctx : (itemContext opts n i item).root = item := by
    simp [itemContext, itemRoot, hpc, hroot]
  refine ⟨⟨hctx, resolveValue_root_eq_data item _ x hctx⟩, ?_, ?_⟩
  · intro d hd
    unfold renderList at hd
    by_cases hl : list.isEmpty
    · simp [hl] at hd
    · simp only [hl, Bool.false_eq_true, if_false] at hd
      rcases List.mem_map.mp hd with ⟨p, hp, rfl⟩
      refine zipWith_forall _ (fun p => p.2.root = p.2.data) ?_ _ _ p hp
      intro a b
      simp [renderItem, itemRoot, hpc, hroot]
  · refine ⟨{ data := .null, parent := .null, root := .num 1,
              ancestors := [], nodes := [] },
      { parentContext := some { data := .null, parent := .null, root := .num 1,
                                ancestors := [], nodes := [] } },
      .obj [("x", .num 2)], 1, 0, rfl, ?_⟩
    intro h
    exact JSValue.noConfusion h

/-- Witness for **C9**: with default options, one item and field `name`,
both sides of the theorem evaluate on concrete data. -/
theorem top_level_root_defaults_to_item_witness :
    resolveValue (.obj [("name", .str "Ada")]) "root.name"
        (itemContext {} 1 0 (.obj [("name", .str "Ada")]))
      = resolveValue (.obj [("name", .str "Ada")]) "data.name"
        (itemContext {} 1 0 (.obj [("name", .str "Ada")])) :=
  ((top_level_root_defaults_to_item {} 1 0 (.obj [("name", .str "Ada")]) "name"
      [] [] [] rfl rfl).1).2

/-- Characters surviving `dropWhile` were in the original list. -/
theorem mem_of_mem_dropWhile {p : Char → Bool} {c : Char} :
    ∀ {l : List Char}, c ∈ l.dropWhile p → c ∈ l := by
  intro l
  induction l with
  | nil => intro h; exact h
  | cons x xs ih =>
    intro h
    by_cases hx : p x
    · rw [List.dropWhile_cons, if_pos hx] at h
      exact List.mem_cons_of_mem x (ih h)
    · rw [List.dropWhile_cons, if_neg hx] at h
      exact h

/-- Characters surviving a trim were in the original list. -/
theorem mem_of_mem_jsTrimChars {c : Char} {l : List Char}
    (h : c ∈ jsTrimChars l) : c ∈ l := by
  unfold jsTrimChars at h
  rw [List.mem_reverse] at h
  have h2 := mem_of_mem_dropWhile h
  rw [List.mem_reverse] at h2
  exact mem_of_mem_dropWhile h2

/-- `indexOf` misses an absent character. -/
theorem splitFirst_eq_none {c : Char} :
    ∀ {xs : List Char}, c ∉ xs → splitFirst c xs = none := by
  intro xs
  induction xs with
  | nil => intro _; rfl
  | cons x l ih =>
    intro h
    have hx : ¬ x = c := fun hc => h (by simp [hc])
    simp only [splitFirst, if_neg hx]
    rw [ih (fun hm => h (List.mem_cons_of_mem x hm))]

/-- `indexOf` finds the first occurrence past a clean prefix. -/
theorem splitFirst_append {c : Char} :
    ∀ (xs ys : List Char), c ∉ xs →
      splitFirst c (xs ++ c :: ys) = some (xs, ys) := by
  intro xs
  induction xs with
  | nil => intro ys _; simp [splitFirst]
  | cons x l ih =>
    intro ys h
    have hx : ¬ x = c := fun hc => h (by simp [hc])
    simp only [List.cons_append, splitFirst, if_neg hx, List.append_eq]
    rw [ih ys (fun hm => h (List.mem_cons_of_mem x hm))]

/-- `lastIndexOf` finds a final occurrence. -/
theorem lastIdxOf_concat (c : Char) :
    ∀ (xs : List Char), lastIdxOf c (xs ++ [c]) = some xs.length := by
  intro xs
  induction xs with
  | nil => simp [lastIdxOf]
  | cons x l ih => simp [lastIdxOf, ih]

/-- `dropWhile` passes through a guaranteed stop character. -/
theorem dropWhile_append_cons (p : Char → Bool) (c : Char) (r : List Char)
    (hc : p c = false) :
    ∀ (l : List Char), (l ++ c :: r).dropWhile p = l.dropWhile p ++ c :: r := by
  intro l
  induction l with
  | nil => simp [List.dropWhile_cons, hc]
  | cons x xs ih =>
    by_cases hx : p x <;>
      simp [List.dropWhile_cons, hx, ih]

/-- `dropWhile` is idempotent. -/
theorem dropWhile_idem (p : Char → Bool) (l : List Char) :
    (l.dropWhile p).dropWhile p = l.dropWhile p := by
  induction l with
  | nil => rfl
  | cons x xs ih =>
    by_cases hx : p x <;> simp [List.dropWhile_cons, hx, ih]

/-- Trimming is insensitive to an already-trimmed left edge. -/
theorem jsTrimChars_dropWhile (l : List Char) :
    jsTrimChars (l.dropWhile Char.isWhitespace) = jsTrimChars l := by
  unfold jsTrimChars
  rw [dropWhile_idem]

/-- A list ending in a non-whitespace character trims only on the
left. -/
theorem jsTrimChars_concat_nonws (l : List Char) (c : Char)
    (hc : c.isWhitespace = false) :
    jsTrimChars (l ++ [c]) = (l ++ [c]).dropWhile Char.isWhitespace := by
  unfold jsTrimChars
  rw [dropWhile_append_cons _ _ _ hc l, List.reverse_append]
  simp [List.dropWhile_cons, hc]

/-- `parsePlaceholder` on a braced key with no pipe: the key is the
trimmed content, there is no formatter and there are no args. -/
theorem parsePlaceholder_no_pipe (p : List Char) (hp : '|' ∉ p) :
    parsePlaceholder (String.mk ('{' :: (p ++ ['}'])))
      = ⟨String.mk (jsTrimChars p), none, []⟩ := by
  unfold parsePlaceholder
  have hdrop : ((String.mk ('{' :: (p ++ ['}']))).data.drop 1).dropLast = p := by
    show ((('{' :: (p ++ ['}'])) : List Char).drop 1).dropLast = p
    rw [List.drop_one, List.tail_cons, List.dropLast_concat]
  rw [hdrop]
  simp only [splitFirst_eq_none
    (fun hm => hp (mem_of_mem_jsTrimChars hm))]

/-- Scanning a brace-free prefix copies it verbatim. -/
theorem scanAux_no_brace (f : String → String) :
    ∀ (xs ys : List Char), '{' ∉ xs →
      scanAux f (xs ++ ys) none = xs ++ scanAux f ys none := by
  intro xs
  induction xs with
  | nil => intro ys _; rfl
  | cons c cs ih =>
    intro ys h
    have hc : ¬ c = '{' := fun hcc => h (by simp [hcc])
    simp only [List.cons_append, scanAux, if_neg hc, List.append_eq]
    rw [ih ys (fun hm => h (List.mem_cons_of_mem c hm))]

/-- Scanning candidate content up to the closing brace: the collected
buffer plus the remaining content becomes one placeholder match (or,
when empty, the braces are emitted verbatim). -/
theorem scanAux_content (f : String → String) :
    ∀ (p buf ys : List Char), '}' ∉ p →
      scanAux f (p ++ '}' :: ys) (some buf)
        = if (buf.reverse ++ p).isEmpty
          then '{' :: '}' :: scanAux f ys none
          else (f (String.mk ('{' :: ((buf.reverse ++ p) ++ ['}'])))).data
                 ++ scanAux f ys none := by
  intro p
  induction p with
  | nil =>
    intro buf ys _
    cases buf <;> simp [scanAux]
  | cons c cs ih =>
    intro buf ys h
    have hc : ¬ c = '}' := fun hcc => h (by simp [hcc])
    simp only [List.cons_append, scanAux, if_neg hc, List.append_eq]
    rw [ih (c :: buf) ys (fun hm => h (List.mem_cons_of_mem c hm))]
    simp [List.append_assoc]

/-- The replacer on a braced, pipe-free match substitutes the resolved,
stringified value of the trimmed key. -/
theorem replacerFn_no_pipe (reg : Registry) (data : JSValue) (ctx : Context)
    (p : List Char) (hp : '|' ∉ p) :
    replacerFn reg data ctx (String.mk ('{' :: (p ++ ['}'])))
      = substString (resolveValue data (String.mk (jsTrimChars p)) ctx) := by
  unfold replacerFn
  rw [parsePlaceholder_no_pipe p hp]

/-- **C1.** Rendering a template containing a valid `{path}` placeholder
with no formatter substitutes exactly `String(v)` for the resolved value
`v` (`substString` is `value != null ? String(value) : ''`, so nullish
resolution substitutes the empty string), leaves the brace-free prefix
untouched, and continues scanning the rest of the template. -/
theorem replacePlaceholders_no_formatter (reg : Registry)
    (pre path post : String) (data : JSValue) (ctx : Context)
    (hpre : '{' ∉ pre.data) (hne : path.data ≠ [])
    (hclose : '}' ∉ path.data) (hpipe : '|' ∉ path.data) :
    replacePlaceholders reg (pre ++ "\x7b" ++ path ++ "\x7d" ++ post) data ctx
      = pre ++ substString (resolveValue data (jsTrim path) ctx)
          ++ replacePlaceholders reg post data ctx := by
  have hdata : (pre ++ "\x7b" ++ path ++ "\x7d" ++ post).data
      = pre.data ++ ('{' :: (path.data ++ '}' :: post.data)) := by
    simp [String.data_append]
  have hempty : (([] : List Char).reverse ++ path.data).isEmpty = false := by
    simp [List.isEmpty_iff, hne]
  have hscan : scanAux (replacerFn reg data ctx)
        (pre ++ "\x7b" ++ path ++ "\x7d" ++ post).data none
      = pre.data
          ++ ((substString (resolveValue data (jsTrim path) ctx)).data
            ++ scanAux (replacerFn reg data ctx) post.data none) := by
    rw [hdata, scanAux_no_brace _ _ _ hpre]
    congr 1
    show scanAux (replacerFn reg data ctx)
        (path.data ++ '}' :: post.data) (some []) = _
    rw [scanAux_content _ _ _ _ hclose, hempty]
    simp only [Bool.false_eq_true, if_false, List.reverse_nil, List.nil_append]
    rw [replacerFn_no_pipe reg data ctx path.data hpipe]
    rfl
  apply String.ext
  show scanAux (replacerFn reg data ctx)
      (pre ++ "\x7b" ++ path ++ "\x7d" ++ post).data none = _
  rw [hscan]
  show _ = (pre ++ substString (resolveValue data (jsTrim path) ctx)
      ++ String.mk (scanAux (replacerFn reg data ctx) post.data none)).data
  simp [String.data_append]

/-- Witness for **C1**: template `A {name} B{q}` against
`{name: "Ada"}` renders prefix, value and recursively-processed suffix
(the unresolved `{q}` placeholder becomes empty). -/
theorem replacePlaceholders_no_formatter_witness :
    replacePlaceholders [] "A \x7bname\x7d B\x7bq\x7d"
        (.obj [("name", .str "Ada")]) {}
      = "A Ada B" := by
  have h := replacePlaceholders_no_formatter [] "A " "name" " B\x7bq\x7d"
    (.obj [("name", .str "Ada")]) {}
    (by decide) (by decide) (by decide) (by decide)
  have e : ("A " ++ "\x7b" ++ "name" ++ "\x7d" ++ " B\x7bq\x7d")
      = "A \x7bname\x7d B\x7bq\x7d" := by rfl
  rw [e] at h
  rw [h]
  rfl

/-- **C4 counterexample.** The claim says a quote-wrapped formatter
argument has its outer quote pair stripped by `parsePlaceholder`. It
does not: `parsePlaceholder` only comma-splits and whitespace-trims
argument tokens (`argsString.split(',').map(arg => arg.trim())`), so the
argument `'a'` is kept verbatim with its quotes; `normalizeToken`'s
quote stripping is applied to path segments during resolution, never to
arguments. -/
theorem parsePlaceholder_args_keep_quotes :
    (parsePlaceholder "\x7bname|wrap(\x27a\x27)\x7d").args = ["\x27a\x27"] ∧
    (parsePlaceholder "\x7bname|wrap(\x27a\x27)\x7d").args ≠ ["a"] := by
  refine ⟨rfl, ?_⟩
  decide

/-- **C4 (amended).** Each argument token of a parsed formatter call is
exactly the whitespace-trimmed text of its comma-separated segment — no
quote stripping and no other unescaping is performed on arguments: for
every key `k` (pipe-free), formatter name `f` (paren-free) and raw
argument text `s`, parsing `{k|f(s)}` yields key `trim(k)`, formatter
`trim(f)`, and as args the comma-split of `trim(s)` with each token
trimmed and otherwise untouched. -/
theorem parsePlaceholder_args_trim_only (k f s : String)
    (hk : '|' ∉ k.data) (hf : '(' ∉ f.data) :
    parsePlaceholder ("\x7b" ++ k ++ "|" ++ f ++ "(" ++ s ++ ")\x7d")
      = { key := jsTrim k,
          formatter := some (jsTrim f),
          args := if (jsTrimChars s.data).isEmpty then []
                  else (splitOnChar ',' (jsTrimChars s.data)).map
                         (fun cs => String.mk (jsTrimChars cs)) } := by
  have hdrop : (("\x7b" ++ k ++ "|" ++ f ++ "(" ++ s ++ ")\x7d").data.drop 1).dropLast
      = k.data ++ '|' :: (f.data ++ '(' :: (s.data ++ [')'])) := by
    have h1 : ("\x7b" ++ k ++ "|" ++ f ++ "(" ++ s ++ ")\x7d").data
        = '{' :: ((k.data ++ '|' :: (f.data ++ '(' :: (s.data ++ [')']))) ++ ['}']) := by
      simp [String.data_append]
    rw [h1, List.drop_one, List.tail_cons, List.dropLast_concat]
  have hcontent : jsTrimChars (k.data ++ '|' :: (f.data ++ '(' :: (s.data ++ [')'])))
      = (k.data.dropWhile Char.isWhitespace)
          ++ '|' :: (f.data ++ '(' :: (s.data ++ [')'])) := by
    have hM : k.data ++ '|' :: (f.data ++ '(' :: (s.data ++ [')']))
        = (k.data ++ '|' :: (f.data ++ '(' :: s.data)) ++ [')'] := by
      simp [List.append_assoc]
    rw [hM, jsTrimChars_concat_nonws _ _ (by decide), List.append_assoc,
      List.cons_append, dropWhile_append_cons _ _ _ (by decide)]
    simp [List.append_assoc]
  have hsplit1 : splitFirst '|'
      ((k.data.dropWhile Char.isWhitespace)
        ++ '|' :: (f.data ++ '(' :: (s.data ++ [')'])))
      = some (k.data.dropWhile Char.isWhitespace,
              f.data ++ '(' :: (s.data ++ [')'])) :=
    splitFirst_append _ _ (fun hm => hk (mem_of_mem_dropWhile hm))
  have hfp : jsTrimChars (f.data ++ '(' :: (s.data ++ [')']))
      = (f.data.dropWhile Char.isWhitespace) ++ '(' :: (s.data ++ [')']) := by
    have hM : f.data ++ '(' :: (s.data ++ [')'])
        = (f.data ++ '(' :: s.data) ++ [')'] := by
      simp [List.append_assoc]
    rw [hM, jsTrimChars_concat_nonws _ _ (by decide), List.append_assoc,
      List.cons_append, dropWhile_append_cons _ _ _ (by decide)]
  have hsplit2 : splitFirst '('
      ((f.data.dropWhile Char.isWhitespace) ++ '(' :: (s.data ++ [')']))
      = some (f.data.dropWhile Char.isWhitespace, s.data ++ [')']) :=
    splitFirst_append _ _ (fun hm => hf (mem_of_mem_dropWhile hm))
  have hslice : argsSlice (f.data.dropWhile Char.isWhitespace) (s.data ++ [')'])
      = s.data := by
    unfold argsSlice
    rw [lastIdxOf_concat]
    exact List.take_left s.data [')']
  unfold parsePlaceholder
  simp only [hdrop, hcontent, hsplit1, hfp, hsplit2, hslice,
    jsTrimChars_dropWhile]
  rfl

/-- Witness for **C4 (amended)**: parsing `{name|wrap('a', 7)}` keeps
the quoted first argument verbatim and trims the second. -/
theorem parsePlaceholder_args_trim_only_witness :
    parsePlaceholder "\x7bname|wrap(\x27a\x27, 7)\x7d"
      = { key := "name", formatter := some "wrap",
          args := ["\x27a\x27", "7"] } := by
  have h := parsePlaceholder_args_trim_only "name" "wrap" "\x27a\x27, 7"
    (by decide) (by decide)
  have e : ("\x7b" ++ "name" ++ "|" ++ "wrap" ++ "(" ++ "\x27a\x27, 7" ++ ")\x7d")
      = "\x7bname|wrap(\x27a\x27, 7)\x7d" := rfl
  rw [e] at h
  rw [h]
  rfl

/-- **C8 counterexample.** The claim says that on entering the `error`
state with no configured error view the component's prior content is
cleared. In the code the `catch` branch of `processFetchList` renders
the error template only when one is configured and has no `else` that
clears (unlike the `empty` branch): a ready component with content
`[text "old"]`, no configured templates and a failing fetch ends in the
`error` state with its prior content still present, not cleared. -/
theorem error_state_counterexample :
    ((processFetchList [] {} (.error "boom")
        { state := some CompState.ready, content := [DomNode.text "old"] }).1
      = { state := some CompState.error, content := [DomNode.text "old"] }) ∧
    [DomNode.text "old"] ≠ ([] : List DomNode) := by
  exact ⟨rfl, by simp⟩

/-- **C8 (amended).** On entering the `error` state the configured error
state view is rendered when one is configured; otherwise the prior
content is left untouched (it is the `empty` state, not the `error`
state, that clears): the final content is the error view if configured,
else the placeholder view if one was rendered on entering `loading`,
else exactly the content the component had before the run. -/
theorem error_state_amended (reg : Registry) (cfg : CompConfig) (e : String)
    (comp : Component) (h : comp.state ≠ some CompState.loading) :
    (processFetchList reg cfg (.error e) comp).1.state = some CompState.error ∧
    (processFetchList reg cfg (.error e) comp).1.content
      = (match cfg.errorTpl with
         | some t => t
         | none =>
           match cfg.placeholderTpl with
           | some p => p
           | none => comp.content) := by
  unfold processFetchList
  simp only [if_neg h]
  cases cfg.errorTpl <;> cases cfg.placeholderTpl <;> simp [renderStateTemplate]

/-- Witness for **C8 (amended)**: with an error view configured it is
rendered; the counterexample component above covers the untouched case. -/
theorem error_state_amended_witness :
    (processFetchList [] { errorTpl := some [DomNode.text "failed"] } (.error "boom")
        { state := some CompState.ready, content := [DomNode.text "old"] }).1.state
      = some CompState.error ∧
    (processFetchList [] { errorTpl := some [DomNode.text "failed"] } (.error "boom")
        { state := some CompState.ready, content := [DomNode.text "old"] }).1.content
      = [DomNode.text "failed"] :=
  error_state_amended [] { errorTpl := some [DomNode.text "failed"] } "boom"
    { state := some CompState.ready, content := [DomNode.text "old"] }
    (fun hx => by cases hx)

end FetchTML
